import Mathlib

/-
Verification of the color-transform core of the Project-Talos repository
(src/image_modification/apply_transforms.py, apply_regional_transform.py,
get_HSL_delta.py).

Embedding conventions:
* Python floats are idealized as exact rationals.
* An 8-bit channel is an integer; a Color is an RGB triple of integers and a
  Pixel is a Color together with an alpha channel.
* Python float operations are modelled directly: x % 1.0 is Int.fract,
  int(x) truncates toward zero.
* colorsys.rgb_to_hls / colorsys.hls_to_rgb are translated line by line from
  the CPython colorsys module used by the scripts.
* PIL operations are translated from the Pillow C sources used by the scripts:
  Image.blend interpolates out = in1 + alpha*(in2 - in1) with exact copies at
  alpha = 0 and alpha = 1, truncation for 0 < alpha < 1 and clamped truncation
  otherwise; ImageEnhance.Brightness blends with a black image;
  ImageEnhance.Color blends with the L-mode grayscale (ITU-R 601-2 luma,
  rounded) of the image.  Constructing a 1x1 image and reading its pixel back
  is the identity on the channel values and is elided.
* Images are total functions from integer coordinates to pixels; the per-pixel
  region loops of the two main() routines become a fold of function updates.
-/

abbrev Color := ℤ × ℤ × ℤ

abbrev Pixel := Color × ℤ

abbrev Image := ℤ × ℤ → Pixel

/-- Python float modulo by 1.0: the result is in [0, 1) with the sign of the
divisor, which is exactly the fractional part. -/
def pyMod1 (q : ℚ) : ℚ := Int.fract q

/-- Python int() on a float: truncation toward zero. -/
def pyInt (q : ℚ) : ℤ := if q < 0 then -⌊-q⌋ else ⌊q⌋

/-- Clamp helper for the additive RGB mask: max(0, min(255, q)). -/
def clamp255 (q : ℚ) : ℚ := max 0 (min 255 q)

/-- colorsys.rgb_to_hls from CPython, on exact rationals.  Input channels are
normalized to [0, 1]; the result is the (h, l, s) triple. -/
def rgb_to_hls (r g b : ℚ) : ℚ × ℚ × ℚ :=
  let maxc := max r (max g b)
  let minc := min r (min g b)
  let sumc := maxc + minc
  let rangec := maxc - minc
  let l := sumc / 2
  if minc = maxc then (0, l, 0)
  else
    let s := if l ≤ 1/2 then rangec / sumc else rangec / (2 - sumc)
    let rc := (maxc - r) / rangec
    let gc := (maxc - g) / rangec
    let bc := (maxc - b) / rangec
    let hraw := if r = maxc then bc - gc else if g = maxc then 2 + rc - bc else 4 + gc - rc
    (pyMod1 (hraw / 6), l, s)

/-- colorsys._v from CPython: the piecewise hue interpolation helper. -/
def hlsV (m1 m2 hue : ℚ) : ℚ :=
  let t := pyMod1 hue
  if t < 1/6 then m1 + (m2 - m1) * t * 6
  else if t < 1/2 then m2
  else if t < 2/3 then m1 + (m2 - m1) * (2/3 - t) * 6
  else m1

/-- colorsys.hls_to_rgb from CPython, on exact rationals. -/
def hls_to_rgb (h l s : ℚ) : ℚ × ℚ × ℚ :=
  if s = 0 then (l, l, l)
  else
    let m2 := if l ≤ 1/2 then l * (1 + s) else l + s - l * s
    let m1 := 2 * l - m2
    (hlsV m1 m2 (h + 1/3), hlsV m1 m2 h, hlsV m1 m2 (h - 1/3))

/-- Pillow RGB-to-L conversion of one pixel (ITU-R 601-2 luma with rounding):
L = (19595 r + 38470 g + 7471 b + 32768) >> 16. -/
def grayL (r g b : ℤ) : ℤ := ⌊((19595 * r + 38470 * g + 7471 * b + 32768 : ℤ) : ℚ) / 65536⌋

/-- Pillow Image.blend on one channel: exact copy at alpha 0 and 1,
truncated interpolation for alpha in between, clamped truncated
extrapolation otherwise (Blend.c). -/
def blendChannel (a b : ℤ) (alpha : ℚ) : ℤ :=
  if alpha = 0 then a
  else if alpha = 1 then b
  else if 0 ≤ alpha ∧ alpha ≤ 1 then ⌊(a : ℚ) + alpha * ((b : ℚ) - (a : ℚ))⌋
  else
    let temp : ℚ := (a : ℚ) + alpha * ((b : ℚ) - (a : ℚ))
    if temp ≤ 0 then 0 else if 255 ≤ temp then 255 else ⌊temp⌋

/-- ImageEnhance.Color(img).enhance(factor) on a single RGB pixel: blend the
pixel with its shared grayscale (L) value. -/
def enhanceColor (c : Color) (factor : ℚ) : Color :=
  let L := grayL c.1 c.2.1 c.2.2
  (blendChannel L c.1 factor, blendChannel L c.2.1 factor, blendChannel L c.2.2 factor)

/-- ImageEnhance.Brightness(img).enhance(factor) on a single RGB pixel: blend
the pixel with black. -/
def enhanceBrightness (c : Color) (factor : ℚ) : Color :=
  (blendChannel 0 c.1 factor, blendChannel 0 c.2.1 factor, blendChannel 0 c.2.2 factor)

/-- Step 1 of the pipelines: the additive RGB mask,
masked = int(max(0, min(255, channel + delta))). -/
def maskStage (c : Color) (dr dg db : ℚ) : Color :=
  (pyInt (clamp255 ((c.1 : ℚ) + dr)), pyInt (clamp255 ((c.2.1 : ℚ) + dg)),
    pyInt (clamp255 ((c.2.2 : ℚ) + db)))

/-- Step 2 of apply_transformation / apply_rgb_and_hsl_transformation: the hue
shift.  Channels are normalized to [0, 1], converted to HLS, the hue is
shifted by new_h = (h + dh/360) % 1.0, converted back and rescaled by
int(x * 255). -/
def hueStage (c : Color) (dh : ℚ) : Color :=
  let hls := rgb_to_hls ((c.1 : ℚ) / 255) ((c.2.1 : ℚ) / 255) ((c.2.2 : ℚ) / 255)
  let new_h := pyMod1 (hls.1 + dh / 360)
  let rgb2 := hls_to_rgb new_h hls.2.1 hls.2.2
  (pyInt (rgb2.1 * 255), pyInt (rgb2.2.1 * 255), pyInt (rgb2.2.2 * 255))

/-- apply_transformation from apply_transforms.py: RGB mask, hue shift,
saturation factor 1 + ds/100, lightness factor 1 + dl/100, final lightness
factor 1 + final_dl/100. -/
def apply_transformation (rgb : Color) (dr dg db dh ds dl final_dl : ℚ) : Color :=
  enhanceBrightness
    (enhanceBrightness
      (enhanceColor (hueStage (maskStage rgb dr dg db) dh) (1 + ds / 100))
      (1 + dl / 100))
    (1 + final_dl / 100)

/-- apply_predefined_transformation from apply_regional_transform.py: the same
stages except that the hue shift is omitted (the source comments state the hue
delta is deliberately not applied in that script); dh is accepted and ignored. -/
def apply_predefined_transformation (rgb : Color) (dr dg db _dh ds dl final_dl : ℚ) : Color :=
  enhanceBrightness
    (enhanceBrightness
      (enhanceColor (maskStage rgb dr dg db) (1 + ds / 100))
      (1 + dl / 100))
    (1 + final_dl / 100)

/-- apply_rgb_and_hsl_transformation from get_HSL_delta.py: mask, hue shift,
saturation, lightness — no final lightness stage. -/
def apply_rgb_and_hsl_transformation (rgb : Color) (dr dg db dh ds dl : ℚ) : Color :=
  enhanceBrightness
    (enhanceColor (hueStage (maskStage rgb dr dg db) dh) (1 + ds / 100))
    (1 + dl / 100)

/-- is_transparent from both application scripts: alpha below the tolerance
(default 10). -/
abbrev is_transparent (px : Pixel) (tolerance : ℤ := 10) : Prop := px.2 < tolerance

/-- One rectangle of a region configuration, (left, top, right, bottom),
half-open on the right and bottom. -/
structure Rect where
  left : ℤ
  top : ℤ
  right : ℤ
  bottom : ℤ

/-- Membership of a coordinate in a rectangle, mirroring the double loop
for x in range(left, right): for y in range(top, bottom). -/
abbrev inRect (rc : Rect) (q : ℤ × ℤ) : Prop :=
  rc.left ≤ q.1 ∧ q.1 < rc.right ∧ rc.top ≤ q.2 ∧ q.2 < rc.bottom

/-- One flattened work item of the region loops of either main(): the
parameter-applied color transform of its region together with one rectangle. -/
abbrev RegionEntry := (Color → Color) × Rect

/-- The write performed for one recolored pixel: new_pixel_rgba =
new_rgb + (original_pixel[3],). -/
def recolorPixel (f : Color → Color) (px : Pixel) : Pixel := (f px.1, px.2)

/-- The inner double loop of main() for one rectangle: every in-rectangle,
non-transparent pixel of the ORIGINAL image is rewritten in the accumulator
with the transformed original color and the original alpha. -/
def applyEntry (orig : Image) (acc : Image) (e : RegionEntry) : Image :=
  fun q =>
    if inRect e.2 q ∧ ¬ is_transparent (orig q) then recolorPixel e.1 (orig q) else acc q

/-- The full region-application loop of main(): fold all (transform, rect)
work items, starting from the untouched copy of the original image, always
reading pixels from the original image. -/
def applyRegions (entries : List RegionEntry) (orig : Image) : Image :=
  entries.foldl (applyEntry orig) orig

/-- Squared per-sample channel error of the fitter objective:
sum((transformed[j] - desired[j])**2 for j in range(3)). -/
def channelSquaredError (t d : Color) : ℤ :=
  (t.1 - d.1) ^ 2 + (t.2.1 - d.2.1) ^ 2 + (t.2.2 - d.2.2) ^ 2

/-- total_error of objective_function in get_HSL_delta.py: the sum over all
anchor samples of the squared channel error of the transformed original color
against the desired color. -/
def total_error (origs desired : List Color) (dr dg db dh ds dl : ℚ) : ℤ :=
  ((origs.zip desired).map
    (fun s => channelSquaredError (apply_rgb_and_hsl_transformation s.1 dr dg db dh ds dl) s.2)).sum

/-- objective_function from get_HSL_delta.py:
np.sqrt(total_error / len(original_anchor_colors)).  The square root makes the
value real; all the underlying arithmetic is the executable total_error. -/
noncomputable def objective_function (origs desired : List Color) (dr dg db dh ds dl : ℚ) : ℝ :=
  Real.sqrt ((total_error origs desired dr dg db dh ds dl : ℝ) / (origs.length : ℝ))

/-- Outcome of the module-level anchor-set guard of get_HSL_delta.py.
processExit models sys.exit(), which terminates the whole process; proceed
models falling through to the optimization with the collected samples.  The
script has no constructor for a recoverable error value because it never
returns one. -/
inductive GuardResult where
  | processExit : GuardResult
  | proceed : List Color → List Color → GuardResult
deriving DecidableEq

/-- The guard at lines 80-82 of get_HSL_delta.py: if not original_anchor_colors,
print an error and sys.exit(); otherwise continue with the samples. -/
def anchorGuard (origs desired : List Color) : GuardResult :=
  if origs = [] then GuardResult.processExit else GuardResult.proceed origs desired

/-- Range predicate for an 8-bit RGB color: every channel in [0, 255]. -/
abbrev inRange255 (c : Color) : Prop :=
  0 ≤ c.1 ∧ c.1 ≤ 255 ∧ 0 ≤ c.2.1 ∧ c.2.1 ≤ 255 ∧ 0 ≤ c.2.2 ∧ c.2.2 ≤ 255

lemma pyMod1_add_one (x : ℚ) : pyMod1 (x + 1) = pyMod1 x := Int.fract_add_one x

lemma hueStage_360 (c : Color) : hueStage c 360 = hueStage c 0 := by
  simp only [hueStage, pyMod1]
  norm_num

lemma enhanceBrightness_zero (c : Color) : enhanceBrightness c 0 = (0, 0, 0) := by
  norm_num [enhanceBrightness, blendChannel]

lemma blendChannel_one (a b : ℤ) : blendChannel a b 1 = b := by
  norm_num [blendChannel]

lemma enhanceBrightness_one (c : Color) : enhanceBrightness c 1 = c := by
  simp only [enhanceBrightness, blendChannel_one]

lemma enhanceColor_one (c : Color) : enhanceColor c 1 = c := by
  simp only [enhanceColor, blendChannel_one]

/-- C1 counterexample: at input color (255, 0, 0) with a 120 degree hue delta
and all other deltas zero, apply_transformation yields (0, 255, 0) while
apply_predefined_transformation (which omits the hue stage) yields (255, 0, 0),
so the two 7-parameter implementations are not the same function. -/
theorem hue_omission_counterexample :
    apply_transformation (255, 0, 0) 0 0 0 120 0 0 0 ≠
      apply_predefined_transformation (255, 0, 0) 0 0 0 120 0 0 0 := by
  have hm : maskStage (255, 0, 0) 0 0 0 = (255, 0, 0) := by
    norm_num [maskStage, clamp255, pyInt]
  have hf : (1 : ℚ) + 0 / 100 = 1 := by norm_num
  have h1 : apply_transformation (255, 0, 0) 0 0 0 120 0 0 0 = (0, 255, 0) := by
    unfold apply_transformation
    have hh : hueStage (255, 0, 0) 120 = (0, 255, 0) := by
      norm_num [hueStage, rgb_to_hls, hls_to_rgb, hlsV, pyMod1, pyInt, Int.fract]
    rw [hm, hh, hf, enhanceColor_one, enhanceBrightness_one, enhanceBrightness_one]
  have h2 : apply_predefined_transformation (255, 0, 0) 0 0 0 120 0 0 0 = (255, 0, 0) := by
    unfold apply_predefined_transformation
    rw [hm, hf, enhanceColor_one, enhanceBrightness_one, enhanceBrightness_one]
  rw [h1, h2]
  decide

/-- C1 (amended): apply_predefined_transformation contains no hue-shift stage
at all — its result is independent of the dh argument — whereas
apply_transformation does shift the hue, so the two implementations compute
different functions (see the counterexample). -/
theorem apply_predefined_ignores_dh (rgb : Color) (dr dg db dh dh2 ds dl fdl : ℚ) :
    apply_predefined_transformation rgb dr dg db dh ds dl fdl =
      apply_predefined_transformation rgb dr dg db dh2 ds dl fdl := rfl

/-- C4 counterexample: on an empty anchor-sample set the guard of
get_HSL_delta.py takes the sys.exit() path, i.e. it aborts the whole process;
it does not return a discriminated error value to a caller. -/
theorem empty_anchor_guard_exits : anchorGuard [] [] = GuardResult.processExit := rfl

/-- C4 (amended): the empty anchor-set guard terminates the whole process via
sys.exit() exactly when zero samples were collected; the failure is detected
and reported, but as a process abort rather than as a recoverable
discriminated result. -/
theorem anchor_guard_exit_iff_empty (origs desired : List Color) :
    anchorGuard origs desired = GuardResult.processExit ↔ origs = [] := by
  unfold anchorGuard
  split_ifs with h
  · simp [h]
  · simp [h]

/-- C8: with dl = -100 the lightness factor is 1 + (-100)/100 = 0, so the
brightness blend returns the black degenerate image exactly, and the final
lightness stage at its identity setting keeps it: every input color maps
to (0, 0, 0), for both the 7-parameter and the 6-parameter pipeline. -/
theorem full_lightness_reduction_black :
    (∀ rgb : Color, apply_transformation rgb 0 0 0 0 0 (-100) 0 = (0, 0, 0)) ∧
    (∀ rgb : Color, apply_rgb_and_hsl_transformation rgb 0 0 0 0 0 (-100) = (0, 0, 0)) := by
  constructor
  · intro rgb
    unfold apply_transformation
    have h0 : (1 : ℚ) + (-100) / 100 = 0 := by norm_num
    have h1 : (1 : ℚ) + 0 / 100 = 1 := by norm_num
    rw [h0, h1, enhanceBrightness_zero, enhanceBrightness_one]
  · intro rgb
    unfold apply_rgb_and_hsl_transformation
    have h0 : (1 : ℚ) + (-100) / 100 = 0 := by norm_num
    rw [h0, enhanceBrightness_zero]

/-- C6: the hue shift is periodic with period 360 — shifting by 360 degrees
gives the same transform as shifting by 0 for every color and any other
parameters — and for every hue and every delta (negative included) the shifted
hue (h + dh/360) mod 1.0 lies in [0, 1). -/
theorem hue_shift_periodic_and_bounded :
    (∀ (rgb : Color) (dr dg db ds dl fdl : ℚ),
        apply_transformation rgb dr dg db 360 ds dl fdl =
          apply_transformation rgb dr dg db 0 ds dl fdl) ∧
    (∀ h dh : ℚ, 0 ≤ pyMod1 (h + dh / 360) ∧ pyMod1 (h + dh / 360) < 1) := by
  constructor
  · intro rgb dr dg db ds dl fdl
    unfold apply_transformation
    rw [hueStage_360]
  · intro h dh
    exact ⟨Int.fract_nonneg _, Int.fract_lt_one _⟩

lemma fract_eq_of_shift (x y : ℚ) (n : ℤ) (hxy : x = y + n) (h0 : 0 ≤ y) (h1 : y < 1) :
    Int.fract x = y := by
  subst hxy
  rw [Int.fract_add_int]
  exact Int.fract_eq_self.mpr ⟨h0, h1⟩

lemma hlsV_lo (m1 m2 x : ℚ) (h : Int.fract x < 1/6) :
    hlsV m1 m2 x = m1 + (m2 - m1) * Int.fract x * 6 := by
  simp only [hlsV, pyMod1]
  rw [if_pos h]

lemma hlsV_mid (m1 m2 x : ℚ) (h1 : 1/6 ≤ Int.fract x) (h2 : Int.fract x < 1/2) :
    hlsV m1 m2 x = m2 := by
  simp only [hlsV, pyMod1]
  rw [if_neg (not_lt.mpr h1), if_pos h2]

lemma hlsV_hi (m1 m2 x : ℚ) (h1 : 1/2 ≤ Int.fract x) (h2 : Int.fract x < 2/3) :
    hlsV m1 m2 x = m1 + (m2 - m1) * (2/3 - Int.fract x) * 6 := by
  simp only [hlsV, pyMod1]
  rw [if_neg (not_lt.mpr (by linarith)), if_neg (not_lt.mpr h1), if_pos h2]

lemma hlsV_top (m1 m2 x : ℚ) (h1 : 2/3 ≤ Int.fract x) : hlsV m1 m2 x = m1 := by
  simp only [hlsV, pyMod1]
  rw [if_neg (not_lt.mpr (by linarith)), if_neg (not_lt.mpr (by linarith)),
    if_neg (not_lt.mpr h1)]

lemma hls_to_rgb_minmax (h m M : ℚ) (h0 : 0 ≤ m) (hmM : m < M) (h1 : M ≤ 1) :
    hls_to_rgb h ((M + m) / 2)
      (if (M + m) / 2 ≤ 1/2 then (M - m) / (M + m) else (M - m) / (2 - (M + m))) =
      (hlsV m M (h + 1/3), hlsV m M h, hlsV m M (h - 1/3)) := by
  have hMpos : 0 < M := lt_of_le_of_lt h0 hmM
  have hsum : 0 < M + m := by linarith
  have h2sum : 0 < 2 - (M + m) := by
    have : m < 1 := lt_of_lt_of_le hmM h1
    linarith
  by_cases hl : (M + m) / 2 ≤ 1/2
  · rw [if_pos hl]
    have hs : (M - m) / (M + m) ≠ 0 := ne_of_gt (div_pos (by linarith) hsum)
    simp only [hls_to_rgb]
    rw [if_neg hs, if_pos hl]
    have hm2 : (M + m) / 2 * (1 + (M - m) / (M + m)) = M := by
      field_simp
      ring
    rw [hm2]
    have hm1 : 2 * ((M + m) / 2) - M = m := by ring
    rw [hm1]
  · rw [if_neg hl]
    have hs : (M - m) / (2 - (M + m)) ≠ 0 := ne_of_gt (div_pos (by linarith) h2sum)
    simp only [hls_to_rgb]
    rw [if_neg hs, if_neg hl]
    have hm2 : (M + m) / 2 + (M - m) / (2 - (M + m)) - (M + m) / 2 * ((M - m) / (2 - (M + m))) = M := by
      field_simp
      ring
    rw [hm2]
    have hm1 : 2 * ((M + m) / 2) - M = m := by ring
    rw [hm1]

lemma roundtrip_all_eq (r : ℚ) :
    hls_to_rgb (rgb_to_hls r r r).1 (rgb_to_hls r r r).2.1 (rgb_to_hls r r r).2.2 = (r, r, r) := by
  have key : rgb_to_hls r r r = (0, r, 0) := by
    simp only [rgb_to_hls, max_self, min_self, if_true]
    simp only [Prod.mk.injEq]
    refine ⟨trivial, by ring, trivial⟩
  rw [key]
  simp only [hls_to_rgb, if_true]

lemma roundtrip_rmax_bg (r g b : ℚ) (hb0 : 0 ≤ b) (hr1 : r ≤ 1)
    (hbg : b ≤ g) (hgr : g ≤ r) (hbr : b < r) :
    hls_to_rgb (rgb_to_hls r g b).1 (rgb_to_hls r g b).2.1 (rgb_to_hls r g b).2.2 = (r, g, b) := by
  have hmax : max r (max g b) = r := max_eq_left (max_le hgr (le_trans hbg hgr))
  have hmin : min r (min g b) = b := by
    rw [min_eq_right hbg]
    exact min_eq_right (le_of_lt hbr)
  have hRpos : (0:ℚ) < r - b := sub_pos.mpr hbr
  simp only [rgb_to_hls, hmax, hmin, pyMod1]
  rw [if_neg (ne_of_lt hbr), if_true]
  dsimp only
  rw [hls_to_rgb_minmax _ b r hb0 hbr hr1]
  have harg : ((r - b) / (r - b) - (r - g) / (r - b)) / 6 = (g - b) / (r - b) / 6 := by
    rw [div_sub_div_same]
    ring_nf
  rw [harg]
  have ht0 : 0 ≤ (g - b) / (r - b) := div_nonneg (by linarith) hRpos.le
  have ht1 : (g - b) / (r - b) ≤ 1 := (div_le_one hRpos).mpr (by linarith)
  have hE : Int.fract ((g - b) / (r - b) / 6) = (g - b) / (r - b) / 6 :=
    Int.fract_eq_self.mpr ⟨by linarith, by linarith⟩
  rw [hE]
  simp only [Prod.mk.injEq]
  refine ⟨?_, ?_, ?_⟩
  · -- red channel: value r
    rcases lt_or_eq_of_le ht1 with htlt | hteq
    · have hf : Int.fract ((g - b) / (r - b) / 6 + 1/3) = (g - b) / (r - b) / 6 + 1/3 :=
        Int.fract_eq_self.mpr ⟨by linarith, by linarith⟩
      rw [hlsV_mid b r ((g - b) / (r - b) / 6 + 1/3) (by rw [hf]; linarith)
        (by rw [hf]; linarith)]
    · have h12 : (g - b) / (r - b) / 6 + 1/3 = 1/2 := by rw [hteq]; norm_num
      rw [h12]
      have hfhalf : Int.fract ((1:ℚ)/2) = 1/2 := Int.fract_eq_self.mpr (by norm_num)
      rw [hlsV_hi b r (1/2) (le_of_eq hfhalf.symm) (by rw [hfhalf]; norm_num), hfhalf]
      ring
  · -- green channel: value g
    rcases lt_or_eq_of_le ht1 with htlt | hteq
    · rw [hlsV_lo b r ((g - b) / (r - b) / 6) (by rw [hE]; linarith), hE]
      field_simp
      ring
    · have hg : g = r := by
        have h7 := hteq
        field_simp at h7
        linarith
      have h16 : (g - b) / (r - b) / 6 = 1/6 := by rw [hteq]
      rw [h16]
      have hf6 : Int.fract ((1:ℚ)/6) = 1/6 := Int.fract_eq_self.mpr (by norm_num)
      rw [hlsV_mid b r (1/6) (le_of_eq hf6.symm) (by rw [hf6]; norm_num)]
      exact hg.symm
  · -- blue channel: value b
    have hf : Int.fract ((g - b) / (r - b) / 6 - 1/3) = (g - b) / (r - b) / 6 + 2/3 :=
      fract_eq_of_shift ((g - b) / (r - b) / 6 - 1/3) ((g - b) / (r - b) / 6 + 2/3) (-1)
        (by push_cast; ring) (by linarith) (by linarith)
    rw [hlsV_top b r ((g - b) / (r - b) / 6 - 1/3) (by rw [hf]; linarith)]

lemma roundtrip_rmax_gb (r g b : ℚ) (hg0 : 0 ≤ g) (hr1 : r ≤ 1)
    (hgb : g < b) (hbr : b ≤ r) :
    hls_to_rgb (rgb_to_hls r g b).1 (rgb_to_hls r g b).2.1 (rgb_to_hls r g b).2.2 = (r, g, b) := by
  have hgr : g < r := lt_of_lt_of_le hgb hbr
  have hmax : max r (max g b) = r := max_eq_left (max_le hgr.le hbr)
  have hmin : min r (min g b) = g := by
    rw [min_eq_left hgb.le]
    exact min_eq_right hgr.le
  have hRpos : (0:ℚ) < r - g := sub_pos.mpr hgr
  simp only [rgb_to_hls, hmax, hmin, pyMod1]
  rw [if_neg (ne_of_lt hgr), if_true]
  dsimp only
  rw [hls_to_rgb_minmax _ g r hg0 hgr hr1]
  have harg : ((r - b) / (r - g) - (r - g) / (r - g)) / 6 = (g - b) / (r - g) / 6 := by
    rw [div_sub_div_same]
    ring_nf
  rw [harg]
  have ht0 : (g - b) / (r - g) < 0 := div_neg_of_neg_of_pos (by linarith) hRpos
  have ht1 : -1 ≤ (g - b) / (r - g) := (le_div_iff₀ hRpos).mpr (by linarith)
  have hE : Int.fract ((g - b) / (r - g) / 6) = (g - b) / (r - g) / 6 + 1 :=
    fract_eq_of_shift ((g - b) / (r - g) / 6) ((g - b) / (r - g) / 6 + 1) (-1)
      (by push_cast; ring) (by linarith) (by linarith)
  rw [hE]
  simp only [Prod.mk.injEq]
  refine ⟨?_, ?_, ?_⟩
  · -- red channel: value r
    have hf : Int.fract ((g - b) / (r - g) / 6 + 1 + 1/3) = (g - b) / (r - g) / 6 + 1/3 :=
      fract_eq_of_shift ((g - b) / (r - g) / 6 + 1 + 1/3) ((g - b) / (r - g) / 6 + 1/3) 1
        (by push_cast; ring) (by linarith) (by linarith)
    rw [hlsV_mid g r ((g - b) / (r - g) / 6 + 1 + 1/3) (by rw [hf]; linarith)
      (by rw [hf]; linarith)]
  · -- green channel: value g
    have hf : Int.fract ((g - b) / (r - g) / 6 + 1) = (g - b) / (r - g) / 6 + 1 :=
      Int.fract_eq_self.mpr ⟨by linarith, by linarith⟩
    rw [hlsV_top g r ((g - b) / (r - g) / 6 + 1) (by rw [hf]; linarith)]
  · -- blue channel: value b
    have hf : Int.fract ((g - b) / (r - g) / 6 + 1 - 1/3) = (g - b) / (r - g) / 6 + 2/3 :=
      fract_eq_of_shift ((g - b) / (r - g) / 6 + 1 - 1/3) ((g - b) / (r - g) / 6 + 2/3) 0
        (by push_cast; ring) (by linarith) (by linarith)
    rw [hlsV_hi g r ((g - b) / (r - g) / 6 + 1 - 1/3) (by rw [hf]; linarith)
      (by rw [hf]; linarith), hf]
    field_simp
    ring

lemma roundtrip_gmax_rb (r g b : ℚ) (hr0 : 0 ≤ r) (hg1 : g ≤ 1)
    (hrb : r ≤ b) (hbg : b ≤ g) (hrg : r < g) :
    hls_to_rgb (rgb_to_hls r g b).1 (rgb_to_hls r g b).2.1 (rgb_to_hls r g b).2.2 = (r, g, b) := by
  have hmax : max r (max g b) = g := by
    rw [max_eq_left hbg]
    exact max_eq_right hrg.le
  have hmin : min r (min g b) = r := by
    rw [min_eq_right hbg]
    exact min_eq_left hrb
  have hRpos : (0:ℚ) < g - r := sub_pos.mpr hrg
  simp only [rgb_to_hls, hmax, hmin, pyMod1]
  rw [if_neg (ne_of_lt hrg), if_neg (ne_of_lt hrg), if_true]
  dsimp only
  rw [hls_to_rgb_minmax _ r g hr0 hrg hg1]
  have harg : (2 + (g - r) / (g - r) - (g - b) / (g - r)) / 6 = (2 + (b - r) / (g - r)) / 6 := by
    field_simp
    ring
  rw [harg]
  have ht0 : 0 ≤ (b - r) / (g - r) := div_nonneg (by linarith) hRpos.le
  have ht1 : (b - r) / (g - r) ≤ 1 := (div_le_one hRpos).mpr (by linarith)
  have hE : Int.fract ((2 + (b - r) / (g - r)) / 6) = (2 + (b - r) / (g - r)) / 6 :=
    Int.fract_eq_self.mpr ⟨by linarith, by linarith⟩
  rw [hE]
  simp only [Prod.mk.injEq]
  refine ⟨?_, ?_, ?_⟩
  · -- red channel: value r
    have hf : Int.fract ((2 + (b - r) / (g - r)) / 6 + 1/3) = (2 + (b - r) / (g - r)) / 6 + 1/3 :=
      Int.fract_eq_self.mpr ⟨by linarith, by linarith⟩
    rw [hlsV_top r g ((2 + (b - r) / (g - r)) / 6 + 1/3) (by rw [hf]; linarith)]
  · -- green channel: value g
    rcases lt_or_eq_of_le ht1 with htlt | hteq
    · rw [hlsV_mid r g ((2 + (b - r) / (g - r)) / 6) (by rw [hE]; linarith)
        (by rw [hE]; linarith)]
    · have h12 : (2 + (b - r) / (g - r)) / 6 = 1/2 := by rw [hteq]; norm_num
      rw [h12]
      have hfhalf : Int.fract ((1:ℚ)/2) = 1/2 := Int.fract_eq_self.mpr (by norm_num)
      rw [hlsV_hi r g (1/2) (le_of_eq hfhalf.symm) (by rw [hfhalf]; norm_num), hfhalf]
      ring
  · -- blue channel: value b
    have hf : Int.fract ((2 + (b - r) / (g - r)) / 6 - 1/3) = (2 + (b - r) / (g - r)) / 6 - 1/3 :=
      Int.fract_eq_self.mpr ⟨by linarith, by linarith⟩
    rcases lt_or_eq_of_le ht1 with htlt | hteq
    · rw [hlsV_lo r g ((2 + (b - r) / (g - r)) / 6 - 1/3) (by rw [hf]; linarith), hf]
      field_simp
      ring
    · have h16 : (2 + (b - r) / (g - r)) / 6 - 1/3 = 1/6 := by rw [hteq]; norm_num
      rw [h16]
      have hf6 : Int.fract ((1:ℚ)/6) = 1/6 := Int.fract_eq_self.mpr (by norm_num)
      rw [hlsV_mid r g (1/6) (le_of_eq hf6.symm) (by rw [hf6]; norm_num)]
      have hb2 : b = g := by
        field_simp at hteq
        linarith
      exact hb2.symm

lemma roundtrip_gmax_br (r g b : ℚ) (hb0 : 0 ≤ b) (hg1 : g ≤ 1)
    (hbr : b < r) (hrg : r < g) :
    hls_to_rgb (rgb_to_hls r g b).1 (rgb_to_hls r g b).2.1 (rgb_to_hls r g b).2.2 = (r, g, b) := by
  have hbg : b < g := lt_trans hbr hrg
  have hmax : max r (max g b) = g := by
    rw [max_eq_left hbg.le]
    exact max_eq_right hrg.le
  have hmin : min r (min g b) = b := by
    rw [min_eq_right hbg.le]
    exact min_eq_right hbr.le
  have hRpos : (0:ℚ) < g - b := sub_pos.mpr hbg
  simp only [rgb_to_hls, hmax, hmin, pyMod1]
  rw [if_neg (ne_of_lt hbg), if_neg (ne_of_lt hrg), if_true]
  dsimp only
  rw [hls_to_rgb_minmax _ b g hb0 hbg hg1]
  have harg : (2 + (g - r) / (g - b) - (g - b) / (g - b)) / 6 = (2 + (b - r) / (g - b)) / 6 := by
    field_simp
    ring
  rw [harg]
  have ht0 : (b - r) / (g - b) < 0 := div_neg_of_neg_of_pos (by linarith) hRpos
  have ht1 : -1 < (b - r) / (g - b) := (lt_div_iff₀ hRpos).mpr (by linarith)
  have hE : Int.fract ((2 + (b - r) / (g - b)) / 6) = (2 + (b - r) / (g - b)) / 6 :=
    Int.fract_eq_self.mpr ⟨by linarith, by linarith⟩
  rw [hE]
  simp only [Prod.mk.injEq]
  refine ⟨?_, ?_, ?_⟩
  · -- red channel: value r
    have hf : Int.fract ((2 + (b - r) / (g - b)) / 6 + 1/3) = (2 + (b - r) / (g - b)) / 6 + 1/3 :=
      Int.fract_eq_self.mpr ⟨by linarith, by linarith⟩
    rw [hlsV_hi b g ((2 + (b - r) / (g - b)) / 6 + 1/3) (by rw [hf]; linarith)
      (by rw [hf]; linarith), hf]
    field_simp
    ring
  · -- green channel: value g
    rw [hlsV_mid b g ((2 + (b - r) / (g - b)) / 6) (by rw [hE]; linarith)
      (by rw [hE]; linarith)]
  · -- blue channel: value b
    have hf : Int.fract ((2 + (b - r) / (g - b)) / 6 - 1/3) = (2 + (b - r) / (g - b)) / 6 + 2/3 :=
      fract_eq_of_shift ((2 + (b - r) / (g - b)) / 6 - 1/3) ((2 + (b - r) / (g - b)) / 6 + 2/3)
        (-1) (by push_cast; ring) (by linarith) (by linarith)
    rw [hlsV_top b g ((2 + (b - r) / (g - b)) / 6 - 1/3) (by rw [hf]; linarith)]

lemma roundtrip_bmax_gr (r g b : ℚ) (hg0 : 0 ≤ g) (hb1 : b ≤ 1)
    (hgr : g ≤ r) (hrb : r < b) :
    hls_to_rgb (rgb_to_hls r g b).1 (rgb_to_hls r g b).2.1 (rgb_to_hls r g b).2.2 = (r, g, b) := by
  have hgb : g < b := lt_of_le_of_lt hgr hrb
  have hmax : max r (max g b) = b := by
    rw [max_eq_right hgb.le]
    exact max_eq_right hrb.le
  have hmin : min r (min g b) = g := by
    rw [min_eq_left hgb.le]
    exact min_eq_right hgr
  have hRpos : (0:ℚ) < b - g := sub_pos.mpr hgb
  simp only [rgb_to_hls, hmax, hmin, pyMod1]
  rw [if_neg (ne_of_lt hgb), if_neg (ne_of_lt hrb), if_neg (ne_of_lt hgb)]
  dsimp only
  rw [hls_to_rgb_minmax _ g b hg0 hgb hb1]
  have harg : (4 + (b - g) / (b - g) - (b - r) / (b - g)) / 6 = (4 + (r - g) / (b - g)) / 6 := by
    field_simp
    ring
  rw [harg]
  have ht0 : 0 ≤ (r - g) / (b - g) := div_nonneg (by linarith) hRpos.le
  have ht1 : (r - g) / (b - g) < 1 := (div_lt_one hRpos).mpr (by linarith)
  have hE : Int.fract ((4 + (r - g) / (b - g)) / 6) = (4 + (r - g) / (b - g)) / 6 :=
    Int.fract_eq_self.mpr ⟨by linarith, by linarith⟩
  rw [hE]
  simp only [Prod.mk.injEq]
  refine ⟨?_, ?_, ?_⟩
  · -- red channel: value r
    have hf : Int.fract ((4 + (r - g) / (b - g)) / 6 + 1/3) = (4 + (r - g) / (b - g)) / 6 - 2/3 :=
      fract_eq_of_shift ((4 + (r - g) / (b - g)) / 6 + 1/3) ((4 + (r - g) / (b - g)) / 6 - 2/3)
        1 (by push_cast; ring) (by linarith) (by linarith)
    rw [hlsV_lo g b ((4 + (r - g) / (b - g)) / 6 + 1/3) (by rw [hf]; linarith), hf]
    field_simp
    ring
  · -- green channel: value g
    rw [hlsV_top g b ((4 + (r - g) / (b - g)) / 6) (by rw [hE]; linarith)]
  · -- blue channel: value b
    have hf : Int.fract ((4 + (r - g) / (b - g)) / 6 - 1/3) = (4 + (r - g) / (b - g)) / 6 - 1/3 :=
      Int.fract_eq_self.mpr ⟨by linarith, by linarith⟩
    rw [hlsV_mid g b ((4 + (r - g) / (b - g)) / 6 - 1/3) (by rw [hf]; linarith)
      (by rw [hf]; linarith)]

lemma roundtrip_bmax_rg (r g b : ℚ) (hr0 : 0 ≤ r) (hb1 : b ≤ 1)
    (hrg : r < g) (hgb : g < b) :
    hls_to_rgb (rgb_to_hls r g b).1 (rgb_to_hls r g b).2.1 (rgb_to_hls r g b).2.2 = (r, g, b) := by
  have hrb : r < b := lt_trans hrg hgb
  have hmax : max r (max g b) = b := by
    rw [max_eq_right hgb.le]
    exact max_eq_right hrb.le
  have hmin : min r (min g b) = r := by
    rw [min_eq_left hgb.le]
    exact min_eq_left hrg.le
  have hRpos : (0:ℚ) < b - r := sub_pos.mpr hrb
  simp only [rgb_to_hls, hmax, hmin, pyMod1]
  rw [if_neg (ne_of_lt hrb), if_neg (ne_of_lt hrb), if_neg (ne_of_lt hgb)]
  dsimp only
  rw [hls_to_rgb_minmax _ r b hr0 hrb hb1]
  have harg : (4 + (b - g) / (b - r) - (b - r) / (b - r)) / 6 = (4 + (r - g) / (b - r)) / 6 := by
    field_simp
    ring
  rw [harg]
  have ht0 : (r - g) / (b - r) < 0 := div_neg_of_neg_of_pos (by linarith) hRpos
  have ht1 : -1 < (r - g) / (b - r) := (lt_div_iff₀ hRpos).mpr (by linarith)
  have hE : Int.fract ((4 + (r - g) / (b - r)) / 6) = (4 + (r - g) / (b - r)) / 6 :=
    Int.fract_eq_self.mpr ⟨by linarith, by linarith⟩
  rw [hE]
  simp only [Prod.mk.injEq]
  refine ⟨?_, ?_, ?_⟩
  · -- red channel: value r
    have hf : Int.fract ((4 + (r - g) / (b - r)) / 6 + 1/3) = (4 + (r - g) / (b - r)) / 6 + 1/3 :=
      Int.fract_eq_self.mpr ⟨by linarith, by linarith⟩
    rw [hlsV_top r b ((4 + (r - g) / (b - r)) / 6 + 1/3) (by rw [hf]; linarith)]
  · -- green channel: value g
    rw [hlsV_hi r b ((4 + (r - g) / (b - r)) / 6) (by rw [hE]; linarith)
      (by rw [hE]; linarith), hE]
    field_simp
    ring
  · -- blue channel: value b
    have hf : Int.fract ((4 + (r - g) / (b - r)) / 6 - 1/3) = (4 + (r - g) / (b - r)) / 6 - 1/3 :=
      Int.fract_eq_self.mpr ⟨by linarith, by linarith⟩
    rw [hlsV_mid r b ((4 + (r - g) / (b - r)) / 6 - 1/3) (by rw [hf]; linarith)
      (by rw [hf]; linarith)]

lemma rgb_hls_roundtrip (r g b : ℚ) (hr0 : 0 ≤ r) (hr1 : r ≤ 1) (hg0 : 0 ≤ g)
    (hg1 : g ≤ 1) (hb0 : 0 ≤ b) (hb1 : b ≤ 1) :
    hls_to_rgb (rgb_to_hls r g b).1 (rgb_to_hls r g b).2.1 (rgb_to_hls r g b).2.2 = (r, g, b) := by
  rcases le_or_lt g r with hgr | hrg
  · rcases le_or_lt b r with hbr | hrb
    · rcases le_or_lt b g with hbg | hgb
      · rcases eq_or_lt_of_le (le_trans hbg hgr) with heq | hlt
        · have hg2 : g = r := le_antisymm hgr (heq ▸ hbg)
          rw [heq, hg2]
          exact roundtrip_all_eq r
        · exact roundtrip_rmax_bg r g b hb0 hr1 hbg hgr hlt
      · exact roundtrip_rmax_gb r g b hg0 hr1 hgb hbr
    · exact roundtrip_bmax_gr r g b hg0 hb1 hgr hrb
  · rcases le_or_lt b g with hbg | hgb
    · rcases le_or_lt r b with hrb | hbr2
      · exact roundtrip_gmax_rb r g b hr0 hg1 hrb hbg hrg
      · exact roundtrip_gmax_br r g b hb0 hg1 hbr2 hrg
    · exact roundtrip_bmax_rg r g b hr0 hb1 hrg hgb

lemma pyInt_intCast (n : ℤ) (hn : 0 ≤ n) : pyInt ((n : ℚ)) = n := by
  unfold pyInt
  rw [if_neg (not_lt.mpr (by exact_mod_cast hn))]
  exact Int.floor_intCast n

lemma clamp255_of_range (q : ℚ) (h0 : 0 ≤ q) (h1 : q ≤ 255) : clamp255 q = q := by
  unfold clamp255
  rw [min_eq_right h1, max_eq_right h0]

lemma maskStage_id (c : Color) (hc : inRange255 c) : maskStage c 0 0 0 = c := by
  obtain ⟨h1, h2, h3, h4, h5, h6⟩ := hc
  unfold maskStage
  rw [add_zero, add_zero, add_zero,
    clamp255_of_range _ (by exact_mod_cast h1) (by exact_mod_cast h2),
    clamp255_of_range _ (by exact_mod_cast h3) (by exact_mod_cast h4),
    clamp255_of_range _ (by exact_mod_cast h5) (by exact_mod_cast h6),
    pyInt_intCast _ h1, pyInt_intCast _ h3, pyInt_intCast _ h5]

lemma rgb_to_hls_fst_fract (r g b : ℚ) :
    Int.fract (rgb_to_hls r g b).1 = (rgb_to_hls r g b).1 := by
  simp only [rgb_to_hls, pyMod1]
  by_cases h : min r (min g b) = max r (max g b)
  · rw [if_pos h]
    exact Int.fract_zero
  · rw [if_neg h]
    exact Int.fract_fract _

lemma hueStage_id (c : Color) (hc : inRange255 c) : hueStage c 0 = c := by
  obtain ⟨h1, h2, h3, h4, h5, h6⟩ := hc
  have hr0 : (0:ℚ) ≤ (c.1 : ℚ) / 255 := div_nonneg (by exact_mod_cast h1) (by norm_num)
  have hr1 : (c.1 : ℚ) / 255 ≤ 1 := (div_le_one (by norm_num)).mpr (by exact_mod_cast h2)
  have hg0 : (0:ℚ) ≤ (c.2.1 : ℚ) / 255 := div_nonneg (by exact_mod_cast h3) (by norm_num)
  have hg1 : (c.2.1 : ℚ) / 255 ≤ 1 := (div_le_one (by norm_num)).mpr (by exact_mod_cast h4)
  have hb0 : (0:ℚ) ≤ (c.2.2 : ℚ) / 255 := div_nonneg (by exact_mod_cast h5) (by norm_num)
  have hb1 : (c.2.2 : ℚ) / 255 ≤ 1 := (div_le_one (by norm_num)).mpr (by exact_mod_cast h6)
  simp only [hueStage, pyMod1]
  have h360 : (rgb_to_hls ((c.1 : ℚ) / 255) ((c.2.1 : ℚ) / 255) ((c.2.2 : ℚ) / 255)).1 + 0 / 360 =
      (rgb_to_hls ((c.1 : ℚ) / 255) ((c.2.1 : ℚ) / 255) ((c.2.2 : ℚ) / 255)).1 := by
    norm_num
  rw [h360, rgb_to_hls_fst_fract, rgb_hls_roundtrip _ _ _ hr0 hr1 hg0 hg1 hb0 hb1]
  dsimp only
  rw [div_mul_cancel₀ _ (by norm_num : (255:ℚ) ≠ 0),
    div_mul_cancel₀ _ (by norm_num : (255:ℚ) ≠ 0),
    div_mul_cancel₀ _ (by norm_num : (255:ℚ) ≠ 0),
    pyInt_intCast _ h1, pyInt_intCast _ h3, pyInt_intCast _ h5]

/-- C2: with all-zero parameters the transform is exactly the identity on every
valid RGB color, for both the 7-parameter pipeline of apply_transforms.py and
the 6-parameter pipeline of get_HSL_delta.py. -/
theorem transform_identity (c : Color) (hc : inRange255 c) :
    apply_transformation c 0 0 0 0 0 0 0 = c ∧
    apply_rgb_and_hsl_transformation c 0 0 0 0 0 0 = c := by
  have hf : (1:ℚ) + 0 / 100 = 1 := by norm_num
  have hm := maskStage_id c hc
  have hh := hueStage_id c hc
  constructor
  · unfold apply_transformation
    rw [hm, hh, hf, enhanceColor_one, enhanceBrightness_one, enhanceBrightness_one]
  · unfold apply_rgb_and_hsl_transformation
    rw [hm, hh, hf, enhanceColor_one, enhanceBrightness_one]

/-- C2 witness: the identity transform at the concrete color (12, 34, 56). -/
theorem transform_identity_witness :
    apply_transformation (12, 34, 56) 0 0 0 0 0 0 0 = (12, 34, 56) ∧
    apply_rgb_and_hsl_transformation (12, 34, 56) 0 0 0 0 0 0 = (12, 34, 56) :=
  transform_identity (12, 34, 56) (by decide)

lemma pyInt_range (q : ℚ) (h0 : 0 ≤ q) (h1 : q ≤ 255) : 0 ≤ pyInt q ∧ pyInt q ≤ 255 := by
  unfold pyInt
  rw [if_neg (not_lt.mpr h0)]
  have h255 : ⌊(255:ℚ)⌋ = 255 := by norm_num
  constructor
  · exact Int.le_floor.mpr (by exact_mod_cast h0)
  · have := Int.floor_le_floor h1
    rw [h255] at this
    exact this

lemma clamp255_range (q : ℚ) : 0 ≤ clamp255 q ∧ clamp255 q ≤ 255 := by
  unfold clamp255
  exact ⟨le_max_left 0 _, max_le (by norm_num) (min_le_left _ _)⟩

lemma maskStage_range (c : Color) (dr dg db : ℚ) : inRange255 (maskStage c dr dg db) := by
  unfold maskStage
  have p1 := pyInt_range _ (clamp255_range ((c.1 : ℚ) + dr)).1 (clamp255_range _).2
  have p2 := pyInt_range _ (clamp255_range ((c.2.1 : ℚ) + dg)).1 (clamp255_range _).2
  have p3 := pyInt_range _ (clamp255_range ((c.2.2 : ℚ) + db)).1 (clamp255_range _).2
  exact ⟨p1.1, p1.2, p2.1, p2.2, p3.1, p3.2⟩

lemma rgb_to_hls_l_s_range (r g b : ℚ) (hr0 : 0 ≤ r) (hr1 : r ≤ 1) (hg0 : 0 ≤ g)
    (hg1 : g ≤ 1) (hb0 : 0 ≤ b) (hb1 : b ≤ 1) :
    0 ≤ (rgb_to_hls r g b).2.1 ∧ (rgb_to_hls r g b).2.1 ≤ 1 ∧
    0 ≤ (rgb_to_hls r g b).2.2 ∧ (rgb_to_hls r g b).2.2 ≤ 1 := by
  have hM1 : max r (max g b) ≤ 1 := max_le hr1 (max_le hg1 hb1)
  have hm0 : 0 ≤ min r (min g b) := le_min hr0 (le_min hg0 hb0)
  have hmM : min r (min g b) ≤ max r (max g b) :=
    le_trans (min_le_left _ _) (le_max_left _ _)
  simp only [rgb_to_hls, pyMod1]
  by_cases h : min r (min g b) = max r (max g b)
  · rw [if_pos h]
    exact ⟨by linarith, by linarith, le_refl 0, by norm_num⟩
  · rw [if_neg h]
    have hlt : min r (min g b) < max r (max g b) := lt_of_le_of_ne hmM h
    have hMpos : 0 < max r (max g b) := lt_of_le_of_lt hm0 hlt
    have hm1 : min r (min g b) < 1 := lt_of_lt_of_le hlt hM1
    refine ⟨by linarith, by linarith, ?_, ?_⟩
    · by_cases hl : (max r (max g b) + min r (min g b)) / 2 ≤ 1/2
      · rw [if_pos hl]
        exact div_nonneg (by linarith) (by linarith)
      · rw [if_neg hl]
        exact div_nonneg (by linarith) (by linarith)
    · by_cases hl : (max r (max g b) + min r (min g b)) / 2 ≤ 1/2
      · rw [if_pos hl]
        exact (div_le_one (by linarith)).mpr (by linarith)
      · rw [if_neg hl]
        exact (div_le_one (by linarith)).mpr (by linarith)

lemma hlsV_between (m1 m2 x : ℚ) (h : m1 ≤ m2) :
    m1 ≤ hlsV m1 m2 x ∧ hlsV m1 m2 x ≤ m2 := by
  have h0 := Int.fract_nonneg x
  have h1 := Int.fract_lt_one x
  simp only [hlsV, pyMod1]
  split_ifs with ha hb hc
  · constructor <;> nlinarith
  · exact ⟨h, le_refl m2⟩
  · constructor <;> nlinarith
  · exact ⟨le_refl m1, h⟩

lemma hls_to_rgb_range (h l s : ℚ) (hl0 : 0 ≤ l) (hl1 : l ≤ 1) (hs0 : 0 ≤ s) (hs1 : s ≤ 1) :
    (0 ≤ (hls_to_rgb h l s).1 ∧ (hls_to_rgb h l s).1 ≤ 1) ∧
    (0 ≤ (hls_to_rgb h l s).2.1 ∧ (hls_to_rgb h l s).2.1 ≤ 1) ∧
    (0 ≤ (hls_to_rgb h l s).2.2 ∧ (hls_to_rgb h l s).2.2 ≤ 1) := by
  simp only [hls_to_rgb]
  by_cases hs : s = 0
  · rw [if_pos hs]
    exact ⟨⟨hl0, hl1⟩, ⟨hl0, hl1⟩, ⟨hl0, hl1⟩⟩
  · rw [if_neg hs]
    by_cases hhalf : l ≤ 1/2
    · rw [if_pos hhalf]
      have hm1m2 : 2 * l - l * (1 + s) ≤ l * (1 + s) := by nlinarith
      have hm10 : 0 ≤ 2 * l - l * (1 + s) := by nlinarith
      have hm21 : l * (1 + s) ≤ 1 := by nlinarith
      have t1 := hlsV_between (2 * l - l * (1 + s)) (l * (1 + s)) (h + 1/3) hm1m2
      have t2 := hlsV_between (2 * l - l * (1 + s)) (l * (1 + s)) h hm1m2
      have t3 := hlsV_between (2 * l - l * (1 + s)) (l * (1 + s)) (h - 1/3) hm1m2
      exact ⟨⟨le_trans hm10 t1.1, le_trans t1.2 hm21⟩,
        ⟨le_trans hm10 t2.1, le_trans t2.2 hm21⟩,
        ⟨le_trans hm10 t3.1, le_trans t3.2 hm21⟩⟩
    · rw [if_neg hhalf]
      have hm1m2 : 2 * l - (l + s - l * s) ≤ l + s - l * s := by nlinarith
      have hm10 : 0 ≤ 2 * l - (l + s - l * s) := by nlinarith
      have hm21 : l + s - l * s ≤ 1 := by nlinarith
      have t1 := hlsV_between (2 * l - (l + s - l * s)) (l + s - l * s) (h + 1/3) hm1m2
      have t2 := hlsV_between (2 * l - (l + s - l * s)) (l + s - l * s) h hm1m2
      have t3 := hlsV_between (2 * l - (l + s - l * s)) (l + s - l * s) (h - 1/3) hm1m2
      exact ⟨⟨le_trans hm10 t1.1, le_trans t1.2 hm21⟩,
        ⟨le_trans hm10 t2.1, le_trans t2.2 hm21⟩,
        ⟨le_trans hm10 t3.1, le_trans t3.2 hm21⟩⟩

lemma pyInt_255_range (x : ℚ) (h0 : 0 ≤ x) (h1 : x ≤ 1) :
    0 ≤ pyInt (x * 255) ∧ pyInt (x * 255) ≤ 255 :=
  pyInt_range (x * 255) (by nlinarith) (by nlinarith)

lemma hueStage_range (c : Color) (hc : inRange255 c) (dh : ℚ) :
    inRange255 (hueStage c dh) := by
  obtain ⟨h1, h2, h3, h4, h5, h6⟩ := hc
  have hr0 : (0:ℚ) ≤ (c.1 : ℚ) / 255 := div_nonneg (by exact_mod_cast h1) (by norm_num)
  have hr1 : (c.1 : ℚ) / 255 ≤ 1 := (div_le_one (by norm_num)).mpr (by exact_mod_cast h2)
  have hg0 : (0:ℚ) ≤ (c.2.1 : ℚ) / 255 := div_nonneg (by exact_mod_cast h3) (by norm_num)
  have hg1 : (c.2.1 : ℚ) / 255 ≤ 1 := (div_le_one (by norm_num)).mpr (by exact_mod_cast h4)
  have hb0 : (0:ℚ) ≤ (c.2.2 : ℚ) / 255 := div_nonneg (by exact_mod_cast h5) (by norm_num)
  have hb1 : (c.2.2 : ℚ) / 255 ≤ 1 := (div_le_one (by norm_num)).mpr (by exact_mod_cast h6)
  have hls := rgb_to_hls_l_s_range _ _ _ hr0 hr1 hg0 hg1 hb0 hb1
  have hrgb := hls_to_rgb_range
    (Int.fract ((rgb_to_hls ((c.1 : ℚ) / 255) ((c.2.1 : ℚ) / 255) ((c.2.2 : ℚ) / 255)).1 + dh / 360))
    _ _ hls.1 hls.2.1 hls.2.2.1 hls.2.2.2
  simp only [hueStage, pyMod1]
  have p1 := pyInt_255_range _ hrgb.1.1 hrgb.1.2
  have p2 := pyInt_255_range _ hrgb.2.1.1 hrgb.2.1.2
  have p3 := pyInt_255_range _ hrgb.2.2.1 hrgb.2.2.2
  exact ⟨p1.1, p1.2, p2.1, p2.2, p3.1, p3.2⟩

lemma grayL_range (r g b : ℤ) (h1 : 0 ≤ r) (h2 : r ≤ 255) (h3 : 0 ≤ g) (h4 : g ≤ 255)
    (h5 : 0 ≤ b) (h6 : b ≤ 255) : 0 ≤ grayL r g b ∧ grayL r g b ≤ 255 := by
  unfold grayL
  have hnum0 : (0:ℤ) ≤ 19595 * r + 38470 * g + 7471 * b + 32768 := by omega
  have h2Q : (r:ℚ) ≤ 255 := by exact_mod_cast h2
  have h4Q : (g:ℚ) ≤ 255 := by exact_mod_cast h4
  have h6Q : (b:ℚ) ≤ 255 := by exact_mod_cast h6
  constructor
  · apply Int.le_floor.mpr
    push_cast
    apply div_nonneg _ (by norm_num)
    exact_mod_cast hnum0
  · have hlt : ((19595 * r + 38470 * g + 7471 * b + 32768 : ℤ) : ℚ) / 65536 < 256 := by
      rw [div_lt_iff₀ (by norm_num)]
      push_cast
      linarith
    have hfl : ⌊((19595 * r + 38470 * g + 7471 * b + 32768 : ℤ) : ℚ) / 65536⌋ < 256 :=
      Int.floor_lt.mpr (by push_cast; push_cast at hlt; linarith)
    omega

lemma blendChannel_range (a b : ℤ) (alpha : ℚ) (ha0 : 0 ≤ a) (ha1 : a ≤ 255)
    (hb0 : 0 ≤ b) (hb1 : b ≤ 255) :
    0 ≤ blendChannel a b alpha ∧ blendChannel a b alpha ≤ 255 := by
  have ha0Q : (0:ℚ) ≤ (a : ℚ) := by exact_mod_cast ha0
  have ha1Q : (a:ℚ) ≤ 255 := by exact_mod_cast ha1
  have hb0Q : (0:ℚ) ≤ (b : ℚ) := by exact_mod_cast hb0
  have hb1Q : (b:ℚ) ≤ 255 := by exact_mod_cast hb1
  have h255 : ⌊(255:ℚ)⌋ = 255 := by norm_num
  simp only [blendChannel]
  split_ifs with h0 h1 h2 h3 h4
  · exact ⟨ha0, ha1⟩
  · exact ⟨hb0, hb1⟩
  · obtain ⟨hq0, hq1⟩ := h2
    have hlo : (0:ℚ) ≤ (a:ℚ) + alpha * ((b:ℚ) - (a:ℚ)) := by nlinarith
    have hhi : (a:ℚ) + alpha * ((b:ℚ) - (a:ℚ)) ≤ 255 := by nlinarith
    constructor
    · exact Int.le_floor.mpr (by push_cast; linarith)
    · have := Int.floor_le_floor hhi
      rw [h255] at this
      exact this
  · exact ⟨le_refl 0, by norm_num⟩
  · exact ⟨by norm_num, le_refl 255⟩
  · push_neg at h3 h4
    constructor
    · exact Int.le_floor.mpr (by push_cast; linarith)
    · have := Int.floor_le_floor (le_of_lt h4)
      rw [h255] at this
      exact this

lemma enhanceColor_range (c : Color) (hc : inRange255 c) (f : ℚ) :
    inRange255 (enhanceColor c f) := by
  obtain ⟨h1, h2, h3, h4, h5, h6⟩ := hc
  have hL := grayL_range c.1 c.2.1 c.2.2 h1 h2 h3 h4 h5 h6
  simp only [enhanceColor]
  have p1 := blendChannel_range _ _ f hL.1 hL.2 h1 h2
  have p2 := blendChannel_range _ _ f hL.1 hL.2 h3 h4
  have p3 := blendChannel_range _ _ f hL.1 hL.2 h5 h6
  exact ⟨p1.1, p1.2, p2.1, p2.2, p3.1, p3.2⟩

lemma enhanceBrightness_range (c : Color) (hc : inRange255 c) (f : ℚ) :
    inRange255 (enhanceBrightness c f) := by
  obtain ⟨h1, h2, h3, h4, h5, h6⟩ := hc
  simp only [enhanceBrightness]
  have p1 := blendChannel_range 0 _ f (le_refl 0) (by norm_num) h1 h2
  have p2 := blendChannel_range 0 _ f (le_refl 0) (by norm_num) h3 h4
  have p3 := blendChannel_range 0 _ f (le_refl 0) (by norm_num) h5 h6
  exact ⟨p1.1, p1.2, p2.1, p2.2, p3.1, p3.2⟩

/-- C5: for every input color and parameters of any magnitude, every channel of
the output of both transform pipelines lies in [0, 255]: the additive mask is
clamped, the HSL conversion maps valid lightness/saturation back into [0, 1],
and every enhancement blend clamps its result to the byte range. -/
theorem transform_output_in_range (rgb : Color) (dr dg db dh ds dl fdl : ℚ) :
    inRange255 (apply_transformation rgb dr dg db dh ds dl fdl) ∧
    inRange255 (apply_rgb_and_hsl_transformation rgb dr dg db dh ds dl) := by
  have hm := maskStage_range rgb dr dg db
  have hh := hueStage_range _ hm dh
  constructor
  · unfold apply_transformation
    exact enhanceBrightness_range _
      (enhanceBrightness_range _ (enhanceColor_range _ hh _) _) _
  · unfold apply_rgb_and_hsl_transformation
    exact enhanceBrightness_range _ (enhanceColor_range _ hh _) _

lemma foldl_applyEntry_unchanged (orig : Image) (p : ℤ × ℤ) :
    ∀ (entries : List RegionEntry) (acc : Image),
      ((∀ e ∈ entries, ¬ inRect e.2 p) ∨ is_transparent (orig p)) →
      List.foldl (applyEntry orig) acc entries p = acc p := by
  intro entries
  induction entries with
  | nil => intro acc _; rfl
  | cons e es ih =>
    intro acc h
    have htail : (∀ e2 ∈ es, ¬ inRect e2.2 p) ∨ is_transparent (orig p) := by
      rcases h with h | h
      · exact Or.inl fun e2 he2 => h e2 (List.mem_cons_of_mem e he2)
      · exact Or.inr h
    have hcond : ¬ (inRect e.2 p ∧ ¬ is_transparent (orig p)) := by
      intro hc
      rcases h with h | h
      · exact h e (List.mem_cons_self e es) hc.1
      · exact hc.2 h
    rw [List.foldl_cons, ih _ htail]
    simp only [applyEntry]
    rw [if_neg hcond]

lemma foldl_applyEntry_alpha (orig : Image) (p : ℤ × ℤ) :
    ∀ (entries : List RegionEntry) (acc : Image), (acc p).2 = (orig p).2 →
      (List.foldl (applyEntry orig) acc entries p).2 = (orig p).2 := by
  intro entries
  induction entries with
  | nil => intro acc h; exact h
  | cons e es ih =>
    intro acc h
    rw [List.foldl_cons]
    apply ih
    simp only [applyEntry, recolorPixel]
    split_ifs with hc
    · rfl
    · exact h

lemma foldl_applyEntry_value (orig : Image) (p : ℤ × ℤ) :
    ∀ (entries : List RegionEntry) (acc : Image),
      List.foldl (applyEntry orig) acc entries p = acc p ∨
        ∃ e ∈ entries, List.foldl (applyEntry orig) acc entries p = recolorPixel e.1 (orig p) := by
  intro entries
  induction entries with
  | nil => intro acc; exact Or.inl rfl
  | cons e es ih =>
    intro acc
    rw [List.foldl_cons]
    rcases ih (applyEntry orig acc e) with h | ⟨e2, he2, h⟩
    · rw [h]
      simp only [applyEntry]
      split_ifs with hc
      · exact Or.inr ⟨e, List.mem_cons_self e es, rfl⟩
      · exact Or.inl rfl
    · exact Or.inr ⟨e2, List.mem_cons_of_mem e he2, h⟩

lemma foldl_applyEntry_local (p : ℤ × ℤ) :
    ∀ (entries : List RegionEntry) (orig orig2 acc acc2 : Image),
      orig p = orig2 p → acc p = acc2 p →
      List.foldl (applyEntry orig) acc entries p =
        List.foldl (applyEntry orig2) acc2 entries p := by
  intro entries
  induction entries with
  | nil => intro orig orig2 acc acc2 _ ha; exact ha
  | cons e es ih =>
    intro orig orig2 acc acc2 ho ha
    rw [List.foldl_cons, List.foldl_cons]
    have hstep : applyEntry orig acc e p = applyEntry orig2 acc2 e p := by
      simp only [applyEntry, ho, ha]
    exact ih orig orig2 (applyEntry orig acc e) (applyEntry orig2 acc2 e) ho hstep

/-- C7: in region application, a pixel outside every rectangle, or transparent
(alpha below 10), keeps exactly its original value; conversely a pixel whose
value changed must be non-transparent and inside some rectangle. -/
theorem region_application_frame (entries : List RegionEntry) (orig : Image) (p : ℤ × ℤ) :
    ((∀ e ∈ entries, ¬ inRect e.2 p) ∨ is_transparent (orig p) →
      applyRegions entries orig p = orig p) ∧
    (applyRegions entries orig p ≠ orig p →
      ¬ is_transparent (orig p) ∧ ∃ e ∈ entries, inRect e.2 p) := by
  constructor
  · intro h
    exact foldl_applyEntry_unchanged orig p entries orig h
  · intro hne
    by_contra hcon
    push_neg at hcon
    by_cases htr : is_transparent (orig p)
    · exact hne (foldl_applyEntry_unchanged orig p entries orig (Or.inr htr))
    · exact hne (foldl_applyEntry_unchanged orig p entries orig (Or.inl (hcon htr)))

/-- C7 witness: with one rectangle (0,0)-(2,2), the pixel at (5,5) outside the
rectangle keeps its original value. -/
theorem region_application_frame_witness :
    applyRegions [(fun c => apply_transformation c 4 0 0 0 0 0 0, Rect.mk 0 0 2 2)]
      (fun _ => ((100, 150, 200), 255)) (5, 5) = ((100, 150, 200), 255) :=
  (region_application_frame
    [(fun c => apply_transformation c 4 0 0 0 0 0 0, Rect.mk 0 0 2 2)]
    (fun _ => ((100, 150, 200), 255)) (5, 5)).1 (Or.inl (by decide))

/-- C9: region application preserves the alpha channel of every recolored pixel:
for a non-transparent pixel inside some rectangle, the output alpha equals the
original alpha exactly (the write is new_rgb + (original_pixel[3],)). -/
theorem recolor_preserves_alpha (entries : List RegionEntry) (orig : Image) (p : ℤ × ℤ)
    (_hop : ¬ is_transparent (orig p)) (_hin : ∃ e ∈ entries, inRect e.2 p) :
    (applyRegions entries orig p).2 = (orig p).2 :=
  foldl_applyEntry_alpha orig p entries orig rfl

/-- C9 witness: the opaque pixel at (1,1) inside the rectangle keeps alpha 255. -/
theorem recolor_preserves_alpha_witness :
    (applyRegions [(fun c => apply_transformation c 4 0 0 0 0 0 0, Rect.mk 0 0 2 2)]
      (fun _ => ((100, 150, 200), 255)) (1, 1)).2 = 255 :=
  recolor_preserves_alpha
    [(fun c => apply_transformation c 4 0 0 0 0 0 0, Rect.mk 0 0 2 2)]
    (fun _ => ((100, 150, 200), 255)) (1, 1) (by decide)
    ⟨(fun c => apply_transformation c 4 0 0 0 0 0 0, Rect.mk 0 0 2 2),
      List.mem_singleton.mpr rfl, by decide⟩

/-- C10: every pixel of the output is computed from the untouched original
image only: outputs at p agree whenever the originals agree at p, and the
output pixel is either the original pixel or the transform of one region
applied once to the original pixel — never a twice-transformed value, even for
overlapping rectangles. -/
theorem recolor_reads_original (entries : List RegionEntry) (orig orig2 : Image)
    (p : ℤ × ℤ) (h : orig p = orig2 p) :
    applyRegions entries orig p = applyRegions entries orig2 p ∧
    (applyRegions entries orig p = orig p ∨
      ∃ e ∈ entries, applyRegions entries orig p = recolorPixel e.1 (orig p)) :=
  ⟨foldl_applyEntry_local p entries orig orig2 orig orig2 h h,
   foldl_applyEntry_value orig p entries orig⟩

/-- C10 witness: the read-from-original properties at a concrete image, region
list and coordinate. -/
theorem recolor_reads_original_witness :
    applyRegions [(fun c => apply_transformation c 4 0 0 0 0 0 0, Rect.mk 0 0 2 2)]
        (fun _ => ((100, 150, 200), 255)) (1, 1) =
      applyRegions [(fun c => apply_transformation c 4 0 0 0 0 0 0, Rect.mk 0 0 2 2)]
        (fun _ => ((100, 150, 200), 255)) (1, 1) ∧
    (applyRegions [(fun c => apply_transformation c 4 0 0 0 0 0 0, Rect.mk 0 0 2 2)]
        (fun _ => ((100, 150, 200), 255)) (1, 1) = ((100, 150, 200), 255) ∨
      ∃ e ∈ [(fun c => apply_transformation c 4 0 0 0 0 0 0, Rect.mk 0 0 2 2)],
        applyRegions [(fun c => apply_transformation c 4 0 0 0 0 0 0, Rect.mk 0 0 2 2)]
          (fun _ => ((100, 150, 200), 255)) (1, 1) =
          recolorPixel e.1 ((100, 150, 200), 255)) :=
  recolor_reads_original
    [(fun c => apply_transformation c 4 0 0 0 0 0 0, Rect.mk 0 0 2 2)]
    (fun _ => ((100, 150, 200), 255)) (fun _ => ((100, 150, 200), 255)) (1, 1) rfl

lemma total_error_eq_sum (origs desired : List Color) (dr dg db dh ds dl : ℚ)
    (h : desired.length = origs.length) :
    total_error origs desired dr dg db dh ds dl =
      ∑ i ∈ Finset.range origs.length,
        channelSquaredError
          (apply_rgb_and_hsl_transformation (origs.getD i (0, 0, 0)) dr dg db dh ds dl)
          (desired.getD i (0, 0, 0)) := by
  unfold total_error
  induction origs generalizing desired with
  | nil => simp
  | cons x xs ih =>
    cases desired with
    | nil => simp at h
    | cons y ys =>
      simp only [List.zip_cons_cons, List.map_cons, List.sum_cons, List.length_cons]
      rw [Finset.sum_range_succ']
      simp only [List.getD_cons_succ, List.getD_cons_zero]
      have h2 : ys.length = xs.length := by simpa using h
      rw [ih ys h2]
      exact add_comm _ _

/-- C3: the fitter objective equals the root of the mean over the N anchor
samples of the summed squared channel errors of the transformed original
colors against the desired colors, with the same 6-parameter transform that
the script later applies to the image. -/
theorem objective_function_is_rmse (origs desired : List Color) (dr dg db dh ds dl : ℚ)
    (hlen : desired.length = origs.length) (_hne : origs ≠ []) :
    objective_function origs desired dr dg db dh ds dl =
      Real.sqrt ((1 / (origs.length : ℝ)) *
        ∑ i ∈ Finset.range origs.length,
          ((((apply_rgb_and_hsl_transformation (origs.getD i (0, 0, 0)) dr dg db dh ds dl).1 : ℝ) -
              ((desired.getD i (0, 0, 0)).1 : ℝ)) ^ 2 +
            (((apply_rgb_and_hsl_transformation (origs.getD i (0, 0, 0)) dr dg db dh ds dl).2.1 : ℝ) -
              ((desired.getD i (0, 0, 0)).2.1 : ℝ)) ^ 2 +
            (((apply_rgb_and_hsl_transformation (origs.getD i (0, 0, 0)) dr dg db dh ds dl).2.2 : ℝ) -
              ((desired.getD i (0, 0, 0)).2.2 : ℝ)) ^ 2)) := by
  unfold objective_function
  congr 1
  rw [total_error_eq_sum origs desired dr dg db dh ds dl hlen]
  push_cast [channelSquaredError]
  ring

/-- C3 witness: the objective at one concrete sample pair and zero parameters. -/
theorem objective_function_is_rmse_witness :
    objective_function [(10, 20, 30)] [(5, 5, 5)] 0 0 0 0 0 0 =
      Real.sqrt ((1 / (([((10:ℤ), (20:ℤ), (30:ℤ))] : List Color).length : ℝ)) *
        ∑ i ∈ Finset.range ([((10:ℤ), (20:ℤ), (30:ℤ))] : List Color).length,
          ((((apply_rgb_and_hsl_transformation
                (([((10:ℤ), (20:ℤ), (30:ℤ))] : List Color).getD i (0, 0, 0)) 0 0 0 0 0 0).1 : ℝ) -
              ((([((5:ℤ), (5:ℤ), (5:ℤ))] : List Color).getD i (0, 0, 0)).1 : ℝ)) ^ 2 +
            (((apply_rgb_and_hsl_transformation
                (([((10:ℤ), (20:ℤ), (30:ℤ))] : List Color).getD i (0, 0, 0)) 0 0 0 0 0 0).2.1 : ℝ) -
              ((([((5:ℤ), (5:ℤ), (5:ℤ))] : List Color).getD i (0, 0, 0)).2.1 : ℝ)) ^ 2 +
            (((apply_rgb_and_hsl_transformation
                (([((10:ℤ), (20:ℤ), (30:ℤ))] : List Color).getD i (0, 0, 0)) 0 0 0 0 0 0).2.2 : ℝ) -
              ((([((5:ℤ), (5:ℤ), (5:ℤ))] : List Color).getD i (0, 0, 0)).2.2 : ℝ)) ^ 2)) :=
  objective_function_is_rmse [(10, 20, 30)] [(5, 5, 5)] 0 0 0 0 0 0 rfl
    (List.cons_ne_nil _ _)
